import Mathlib

/-!
Verification development for the speex-resampler Node bindings.

The repository exposes the Speex resampler through two bindings (a WASM
binding in `app/index.js` and an N-API native binding in
`src/resampler.cc` + `src/index.js`) and a `Transform`-stream adapter.
This file shallowly embeds those layers:

* the resampling engine itself (the Speex DSP code lives in `deps/`, not in
  the binding sources, so it is modelled from the specification's
  description of the filter designer, polyphase interpolator and streaming
  state tracker);
* the WASM wrapper `SpeexResampler.processChunk` (argument validation,
  busy flag, lazy engine creation, scratch-buffer growth, byte
  marshalling), translated statement by statement from `app/index.js`;
* the native `createResampler` argument validation from `src/resampler.cc`;
* the native `SpeexResamplerTransform._transform` alignment adapter from
  `src/index.js`.
-/

namespace SpeexVerify

/-- Ceiling division on naturals: `ceilDiv a b = ⌈a / b⌉` for `b > 0`
(and `0` when `b = 0`). -/
def ceilDiv (a b : ℕ) : ℕ := (a + b - 1) / b

theorem ceilDiv_le_iff {a b t : ℕ} (hb : 0 < b) : ceilDiv a b ≤ t ↔ a ≤ t * b := by
  unfold ceilDiv
  rw [Nat.div_le_iff_le_mul_add_pred hb, Nat.mul_comm b t]
  omega

theorem lt_ceilDiv_iff {a b k : ℕ} (hb : 0 < b) : k < ceilDiv a b ↔ k * b < a := by
  constructor
  · intro h
    by_contra hc
    push_neg at hc
    have : ceilDiv a b ≤ k := (ceilDiv_le_iff hb).mpr hc
    omega
  · intro h
    by_contra hc
    push_neg at hc
    have : a ≤ k * b := (ceilDiv_le_iff hb).mp hc
    omega

theorem le_mul_ceilDiv {a b : ℕ} (hb : 0 < b) : a ≤ ceilDiv a b * b := by
  have := (ceilDiv_le_iff (t := ceilDiv a b) hb).mp le_rfl
  exact this

theorem ceilDiv_mono_left {a a' b : ℕ} (h : a ≤ a') : ceilDiv a b ≤ ceilDiv a' b := by
  unfold ceilDiv
  exact Nat.div_le_div_right (by omega)

theorem ceilDiv_add_le {x y b : ℕ} (hb : 0 < b) :
    ceilDiv (x + y) b ≤ ceilDiv x b + ceilDiv y b := by
  rw [ceilDiv_le_iff hb, Nat.add_mul]
  exact Nat.add_le_add (le_mul_ceilDiv hb) (le_mul_ceilDiv hb)

/-- Configuration of a resampler instance: channel count, input and output
sample rates in Hz, and the quality knob (the code defaults it to 7). -/
structure SpeexConfig where
  channels : ℕ
  inRate : ℕ
  outRate : ℕ
  quality : ℕ
deriving DecidableEq

/-- Modelled from the spec: `speex_resampler_init` (the Speex library under
`deps/`, not under the binding sources) succeeds exactly on the
configurations the spec declares valid — `channels ≥ 1`, positive rates and
`quality ∈ [1,10]`; anything else is a `ConfigurationError`. -/
def speexInitOk (cfg : SpeexConfig) : Bool :=
  1 ≤ cfg.channels && 1 ≤ cfg.inRate && 1 ≤ cfg.outRate &&
    1 ≤ cfg.quality && cfg.quality ≤ 10

/-- A configuration the engine accepts. -/
def SpeexConfig.Valid (cfg : SpeexConfig) : Prop := speexInitOk cfg = true

instance (cfg : SpeexConfig) : Decidable cfg.Valid := by
  unfold SpeexConfig.Valid
  exact inferInstance

theorem SpeexConfig.Valid.channels_pos {cfg : SpeexConfig} (h : cfg.Valid) :
    0 < cfg.channels := by
  unfold SpeexConfig.Valid speexInitOk at h
  simp only [Bool.and_eq_true, decide_eq_true_eq] at h
  omega

theorem SpeexConfig.Valid.inRate_pos {cfg : SpeexConfig} (h : cfg.Valid) :
    0 < cfg.inRate := by
  unfold SpeexConfig.Valid speexInitOk at h
  simp only [Bool.and_eq_true, decide_eq_true_eq] at h
  omega

theorem SpeexConfig.Valid.outRate_pos {cfg : SpeexConfig} (h : cfg.Valid) :
    0 < cfg.outRate := by
  unfold SpeexConfig.Valid speexInitOk at h
  simp only [Bool.and_eq_true, decide_eq_true_eq] at h
  omega

theorem SpeexConfig.Valid.quality_pos {cfg : SpeexConfig} (h : cfg.Valid) :
    0 < cfg.quality := by
  unfold SpeexConfig.Valid speexInitOk at h
  simp only [Bool.and_eq_true, decide_eq_true_eq] at h
  omega

/-- Modelled from the spec: the quality knob "linearly controls the number
of taps per phase"; the filter's half-width (lookback = lookahead window,
in input samples) grows linearly with quality.  The claims settled here
depend only on this value being a positive deterministic function of the
quality, so a simple linear law is used. -/
def filterHalfwidth (q : ℕ) : ℕ := 4 * q

/-- Index of the last input sample (per channel) the interpolator reads to
produce output sample `k`: the integer part of the exact fractional read
position `k · inRate/outRate` plus the filter's lookahead. -/
def reqIndex (cfg : SpeexConfig) (k : ℕ) : ℕ :=
  k * cfg.inRate / cfg.outRate + filterHalfwidth cfg.quality

/-- Total number of output samples (per channel) the engine can produce
once `n` input samples per channel have been received: the number of output
indices whose full filter window fits in the received input (the spec's
"maximal number of correctly-interpolated output samples obtainable from
available input"). -/
def outCount (cfg : SpeexConfig) (n : ℕ) : ℕ :=
  if n ≤ filterHalfwidth cfg.quality then 0
  else ceilDiv ((n - filterHalfwidth cfg.quality) * cfg.outRate) cfg.inRate

theorem lt_outCount_iff {cfg : SpeexConfig} (hin : 0 < cfg.inRate)
    (hout : 0 < cfg.outRate) {k n : ℕ} :
    k < outCount cfg n ↔ reqIndex cfg k < n := by
  unfold outCount reqIndex
  by_cases hle : n ≤ filterHalfwidth cfg.quality
  · rw [if_pos hle]
    constructor
    · intro hk
      exact absurd hk (Nat.not_lt_zero k)
    · intro hk
      exfalso
      have hlt : filterHalfwidth cfg.quality < n :=
        lt_of_le_of_lt (Nat.le_add_left _ _) hk
      omega
  · push_neg at hle
    rw [if_neg (by omega), lt_ceilDiv_iff hin, ← Nat.div_lt_iff_lt_mul hout]
    omega

theorem outCount_mono {cfg : SpeexConfig} {a b : ℕ} (h : a ≤ b) :
    outCount cfg a ≤ outCount cfg b := by
  unfold outCount
  by_cases ha : a ≤ filterHalfwidth cfg.quality
  · simp [ha]
  · rw [if_neg ha, if_neg (by omega)]
    exact ceilDiv_mono_left (Nat.mul_le_mul_right _ (by omega))

theorem outCount_add_le {cfg : SpeexConfig} (hin : 0 < cfg.inRate) (a b : ℕ) :
    outCount cfg (a + b) ≤ outCount cfg a + ceilDiv (b * cfg.outRate) cfg.inRate := by
  unfold outCount
  by_cases hab : a + b ≤ filterHalfwidth cfg.quality
  · simp [hab]
  · rw [if_neg hab]
    by_cases ha : a ≤ filterHalfwidth cfg.quality
    · rw [if_pos ha, Nat.zero_add]
      exact le_trans (ceilDiv_mono_left (Nat.mul_le_mul_right _ (by omega))) le_rfl
    · rw [if_neg ha]
      have : (a + b - filterHalfwidth cfg.quality) * cfg.outRate =
          (a - filterHalfwidth cfg.quality) * cfg.outRate + b * cfg.outRate := by
        rw [← Nat.add_mul]
        congr 1
        omega
      rw [this]
      exact ceilDiv_add_le hin

/-- Saturating store of the fixed-point accumulator into a signed 16-bit
sample: out-of-range values clamp to `[-32768, 32767]`. -/
def saturate16 (x : ℤ) : ℤ := max (-32768) (min 32767 x)

/-- Modelled from the spec: one fixed-point coefficient of the windowed-sinc
filter bank (the Speex filter tables live in `deps/`, not in the binding
sources).  The spec pins down only that the bank is a deterministic
integer-valued function of the configuration, the polyphase branch and the
tap index, with `2·halfwidth + 1` taps per phase; the claims settled here
are independent of the concrete coefficient values, so a simple triangular
stand-in kernel is used. -/
def tapCoeff (cfg : SpeexConfig) (phase j : ℕ) : ℤ :=
  ((filterHalfwidth cfg.quality : ℤ) + 1 -
      |(j : ℤ) - (filterHalfwidth cfg.quality : ℤ)|) * ((phase : ℤ) + 1)

/-- Sample `i` of channel `ch` inside the interleaved sample list `xs`
(`c` channels); negative positions read the implicit silence the spec
pre-pads the history with, positions past the end read `0`. -/
def chanAt (c ch : ℕ) (xs : List ℤ) (i : ℤ) : ℤ :=
  if i < 0 then 0 else xs.getD (i.toNat * c + ch) 0

/-- Modelled from the spec: the polyphase interpolator's output sample `k`
of channel `ch`, computed from the interleaved samples received so far.
The exact fractional read position is `k · inRate/outRate`; the filter
branch is selected by its fractional part, the taps are convolved against
the window of half-width `filterHalfwidth` centred at its integer part,
and the wide accumulator is scaled back and saturated to 16 bits. -/
def outSampleAt (cfg : SpeexConfig) (xs : List ℤ) (k ch : ℕ) : ℤ :=
  saturate16 (((Finset.range (2 * filterHalfwidth cfg.quality + 1)).sum
      (fun j => tapCoeff cfg (k * cfg.inRate % cfg.outRate) j *
        chanAt cfg.channels ch xs
          (((k * cfg.inRate / cfg.outRate : ℕ) : ℤ) + (j : ℤ) -
            (filterHalfwidth cfg.quality : ℤ)))) / 65536)

/-- Output frame `k`: one interpolated sample per channel, interleaved. -/
def outFrame (cfg : SpeexConfig) (xs : List ℤ) (k : ℕ) : List ℤ :=
  (List.range cfg.channels).map (fun ch => outSampleAt cfg xs k ch)

theorem chanAt_append {c ch n : ℕ} (hch : ch < c) {xs ext : List ℤ}
    (hlen : xs.length = n * c) {i : ℤ} (hi : i < (n : ℤ)) :
    chanAt c ch (xs ++ ext) i = chanAt c ch xs i := by
  unfold chanAt
  by_cases hneg : i < 0
  · rw [if_pos hneg, if_pos hneg]
  · rw [if_neg hneg, if_neg hneg]
    push_neg at hneg
    have hlt : i.toNat < n := by omega
    have hidx : i.toNat * c + ch < xs.length := by
      rw [hlen]
      calc i.toNat * c + ch < i.toNat * c + c := by omega
        _ = (i.toNat + 1) * c := by ring
        _ ≤ n * c := Nat.mul_le_mul_right c (by omega)
    exact List.getD_append _ _ _ _ hidx

theorem outSampleAt_append (cfg : SpeexConfig) {xs ext : List ℤ} {n k ch : ℕ}
    (hch : ch < cfg.channels) (hlen : xs.length = n * cfg.channels)
    (hk : reqIndex cfg k < n) :
    outSampleAt cfg (xs ++ ext) k ch = outSampleAt cfg xs k ch := by
  unfold outSampleAt
  have hsum : (Finset.range (2 * filterHalfwidth cfg.quality + 1)).sum
      (fun j => tapCoeff cfg (k * cfg.inRate % cfg.outRate) j *
        chanAt cfg.channels ch (xs ++ ext)
          (((k * cfg.inRate / cfg.outRate : ℕ) : ℤ) + (j : ℤ) -
            (filterHalfwidth cfg.quality : ℤ))) =
      (Finset.range (2 * filterHalfwidth cfg.quality + 1)).sum
      (fun j => tapCoeff cfg (k * cfg.inRate % cfg.outRate) j *
        chanAt cfg.channels ch xs
          (((k * cfg.inRate / cfg.outRate : ℕ) : ℤ) + (j : ℤ) -
            (filterHalfwidth cfg.quality : ℤ))) := by
    refine Finset.sum_congr rfl (fun j hj => ?_)
    congr 1
    refine chanAt_append hch hlen ?_
    have hjle : j ≤ 2 * filterHalfwidth cfg.quality := by
      have := Finset.mem_range.mp hj
      omega
    have hreq : (k * cfg.inRate / cfg.outRate : ℕ) + filterHalfwidth cfg.quality < n := hk
    have hj' : (j : ℤ) ≤ 2 * (filterHalfwidth cfg.quality : ℤ) := by exact_mod_cast hjle
    have hreq' : ((k * cfg.inRate / cfg.outRate : ℕ) : ℤ) +
        (filterHalfwidth cfg.quality : ℤ) < (n : ℤ) := by exact_mod_cast hreq
    omega
  rw [hsum]

theorem outFrame_append (cfg : SpeexConfig) {xs ext : List ℤ} {n k : ℕ}
    (hlen : xs.length = n * cfg.channels) (hk : reqIndex cfg k < n) :
    outFrame cfg (xs ++ ext) k = outFrame cfg xs k := by
  unfold outFrame
  refine List.map_congr_left (fun ch hch => ?_)
  exact outSampleAt_append cfg (List.mem_range.mp hch) hlen hk

theorem length_outFrame (cfg : SpeexConfig) (xs : List ℤ) (k : ℕ) :
    (outFrame cfg xs k).length = cfg.channels := by
  unfold outFrame
  rw [List.length_map, List.length_range]

/-- The engine's streaming state.  The spec's per-channel history ring and
fractional phase accumulator are determined by the interleaved samples
received so far together with the count of output frames already emitted,
so the state is represented by exactly those two quantities. -/
structure EngineState where
  received : List ℤ
  emitted : ℕ
deriving DecidableEq

def EngineState.fresh : EngineState := ⟨[], 0⟩

/-- Modelled from the spec: one engine call
(`speex_resampler_process_interleaved_int`, whose body lives in `deps/`).
Per spec §4.2–4.3 the engine appends the new interleaved samples to its
persisted stream, emits every output frame whose filter window is now
covered by the received input (and that was not emitted by an earlier
call), and retains everything else in its state for the next call. -/
def engineProcess (cfg : SpeexConfig) (st : EngineState) (input : List ℤ) :
    List (List ℤ) × EngineState :=
  let received := st.received ++ input
  let total := outCount cfg (received.length / cfg.channels)
  ((List.range' st.emitted (total - st.emitted)).map (outFrame cfg received),
   ⟨received, total⟩)

/-- Successive engine calls on one instance, collecting each call's output
samples (flattened frames). -/
def engineFeed (cfg : SpeexConfig) (st : EngineState) :
    List (List ℤ) → List (List ℤ) × EngineState
  | [] => ([], st)
  | c :: cs =>
      let p := engineProcess cfg st c
      let r := engineFeed cfg p.2 cs
      (p.1.flatten :: r.1, r.2)

theorem engineProcess_inv (cfg : SpeexConfig) (hC : 0 < cfg.channels)
    {xs c : List ℤ} {n m : ℕ} (hxs : xs.length = n * cfg.channels)
    (hc : c.length = m * cfg.channels) :
    engineProcess cfg ⟨xs, outCount cfg n⟩ c =
      ((List.range' (outCount cfg n) (outCount cfg (n + m) - outCount cfg n)).map
          (outFrame cfg (xs ++ c)),
        ⟨xs ++ c, outCount cfg (n + m)⟩) := by
  have hlen : (xs ++ c).length / cfg.channels = n + m := by
    rw [List.length_append, hxs, hc, ← Nat.add_mul]
    exact Nat.mul_div_cancel _ hC
  simp only [engineProcess, hlen]

theorem engineFeed_nil (cfg : SpeexConfig) (st : EngineState) :
    engineFeed cfg st [] = ([], st) := rfl

theorem engineFeed_cons (cfg : SpeexConfig) (st : EngineState) (c : List ℤ)
    (cs : List (List ℤ)) :
    engineFeed cfg st (c :: cs) =
      ((engineProcess cfg st c).1.flatten ::
          (engineFeed cfg (engineProcess cfg st c).2 cs).1,
        (engineFeed cfg (engineProcess cfg st c).2 cs).2) := rfl

theorem dvd_flatten_length {α : Type} {k : ℕ} :
    ∀ (ds : List (List α)), (∀ d ∈ ds, k ∣ d.length) → k ∣ ds.flatten.length
  | [], _ => by simp
  | d :: ds, h => by
      rw [List.flatten_cons, List.length_append]
      exact Nat.dvd_add (h d (List.mem_cons_self d ds))
        (dvd_flatten_length ds (fun e he => h e (List.mem_cons_of_mem d he)))

theorem engineFeed_explicit (cfg : SpeexConfig) (hin : 0 < cfg.inRate)
    (hout : 0 < cfg.outRate) (hC : 0 < cfg.channels) :
    ∀ (inputs : List (List ℤ)) (xs : List ℤ) (n : ℕ),
      xs.length = n * cfg.channels →
      (∀ c ∈ inputs, cfg.channels ∣ c.length) →
      (engineFeed cfg ⟨xs, outCount cfg n⟩ inputs).1.flatten =
        ((List.range' (outCount cfg n)
            (outCount cfg (n + inputs.flatten.length / cfg.channels) -
              outCount cfg n)).map (outFrame cfg (xs ++ inputs.flatten))).flatten ∧
      (engineFeed cfg ⟨xs, outCount cfg n⟩ inputs).2 =
        ⟨xs ++ inputs.flatten,
          outCount cfg (n + inputs.flatten.length / cfg.channels)⟩
  | [], xs, n, hxs, _ => by
      rw [engineFeed_nil]
      constructor
      · simp
      · simp
  | c :: cs, xs, n, hxs, hdvd => by
      obtain ⟨m, hm⟩ := hdvd c (List.mem_cons_self c cs)
      have hc : c.length = m * cfg.channels := by rw [hm, Nat.mul_comm]
      have hxc : (xs ++ c).length = (n + m) * cfg.channels := by
        rw [List.length_append, hxs, hc, Nat.add_mul]
      obtain ⟨M, hM⟩ : cfg.channels ∣ cs.flatten.length :=
        dvd_flatten_length cs (fun d hd => hdvd d (List.mem_cons_of_mem c hd))
      have hMlen : cs.flatten.length = M * cfg.channels := by rw [hM, Nat.mul_comm]
      have hflcons : (c :: cs).flatten = c ++ cs.flatten := List.flatten_cons
      have hdivM : cs.flatten.length / cfg.channels = M := by
        rw [hMlen]
        exact Nat.mul_div_cancel _ hC
      have hdivmM : (c ++ cs.flatten).length / cfg.channels = m + M := by
        rw [List.length_append, hc, hMlen, ← Nat.add_mul]
        exact Nat.mul_div_cancel _ hC
      have hstep := engineProcess_inv cfg hC hxs hc
      have ih := engineFeed_explicit cfg hin hout hC cs (xs ++ c) (n + m) hxc
        (fun d hd => hdvd d (List.mem_cons_of_mem c hd))
      have hE1 : outCount cfg n ≤ outCount cfg (n + m) :=
        outCount_mono (Nat.le_add_right n m)
      have hE2 : outCount cfg (n + m) ≤ outCount cfg (n + m + M) :=
        outCount_mono (Nat.le_add_right _ M)
      have hassoc : (xs ++ c) ++ cs.flatten = xs ++ (c ++ cs.flatten) :=
        List.append_assoc xs c cs.flatten
      have haddassoc : n + m + M = n + (m + M) := Nat.add_assoc n m M
      rw [engineFeed_cons, hstep]
      constructor
      · show (List.map (outFrame cfg (xs ++ c))
            (List.range' (outCount cfg n)
              (outCount cfg (n + m) - outCount cfg n))).flatten ++
          (engineFeed cfg ⟨xs ++ c, outCount cfg (n + m)⟩ cs).1.flatten = _
        rw [hflcons, ih.1, hdivM, hdivmM]
        have hfirst : List.map (outFrame cfg (xs ++ c))
              (List.range' (outCount cfg n)
                (outCount cfg (n + m) - outCount cfg n)) =
            List.map (outFrame cfg (xs ++ (c ++ cs.flatten)))
              (List.range' (outCount cfg n)
                (outCount cfg (n + m) - outCount cfg n)) := by
          refine List.map_congr_left (fun k hk => ?_)
          have hkmem := List.mem_range'_1.mp hk
          have hklt : k < outCount cfg (n + m) := by omega
          have hreq : reqIndex cfg k < n + m := (lt_outCount_iff hin hout).mp hklt
          rw [← hassoc]
          exact (outFrame_append cfg hxc hreq).symm
        rw [hfirst, hassoc, ← List.flatten_append, ← List.map_append]
        have hr : List.range' (outCount cfg n)
              (outCount cfg (n + m) - outCount cfg n) ++
            List.range' (outCount cfg (n + m))
              (outCount cfg (n + m + M) - outCount cfg (n + m)) =
            List.range' (outCount cfg n)
              (outCount cfg (n + (m + M)) - outCount cfg n) := by
          have happ := List.range'_append_1 (outCount cfg n)
            (outCount cfg (n + m) - outCount cfg n)
            (outCount cfg (n + m + M) - outCount cfg (n + m))
          rw [Nat.add_sub_cancel' hE1] at happ
          rw [happ, ← haddassoc]
          congr 1
          omega
        rw [← haddassoc, hr, haddassoc]
      · show (engineFeed cfg ⟨xs ++ c, outCount cfg (n + m)⟩ cs).2 = _
        rw [hflcons, ih.2, hdivM, hassoc, hdivmM, haddassoc]

/-- Value of a little-endian 16-bit word reinterpreted as a signed sample,
as the WASM heap copy in `processChunk` does. -/
def fromU16 (v : ℕ) : ℤ :=
  if v % 65536 < 32768 then ((v % 65536 : ℕ) : ℤ) else ((v % 65536 : ℕ) : ℤ) - 65536

/-- Decode an interleaved little-endian 16-bit byte buffer into samples
(`chunk` as handed to `HEAPU8.set` in `processChunk`). -/
def decodeBytes : List ℕ → List ℤ
  | b0 :: b1 :: rest => fromU16 (b0 + 256 * b1) :: decodeBytes rest
  | _ => []

/-- Two's-complement 16-bit image of a sample, for the little-endian store
the wrapper copies out of the WASM heap. -/
def toU16 (s : ℤ) : ℕ := (s % 65536).toNat

/-- Encode one sample as its two little-endian bytes. -/
def encodeSample (s : ℤ) : List ℕ := [toU16 s % 256, toU16 s / 256]

/-- Encode a sample list as an interleaved little-endian 16-bit buffer. -/
def encodeList (xs : List ℤ) : List ℕ := xs.flatMap encodeSample

theorem decodeBytes_append : ∀ (a b : List ℕ), a.length % 2 = 0 →
    decodeBytes (a ++ b) = decodeBytes a ++ decodeBytes b
  | [], _, _ => by simp [decodeBytes]
  | [_], _, h => by simp at h
  | x :: y :: rest, b, h => by
      have ih := decodeBytes_append rest b (by
        simp only [List.length_cons] at h
        omega)
      simp only [List.cons_append, decodeBytes, List.append_eq, ih]

theorem decodeBytes_length : ∀ (a : List ℕ), (decodeBytes a).length = a.length / 2
  | [] => by simp [decodeBytes]
  | [_] => by simp [decodeBytes]
  | x :: y :: rest => by
      have ih := decodeBytes_length rest
      simp only [decodeBytes, List.length_cons, ih]
      omega

theorem encodeList_append (xs ys : List ℤ) :
    encodeList (xs ++ ys) = encodeList xs ++ encodeList ys := by
  unfold encodeList
  exact List.flatMap_append xs ys encodeSample

theorem encodeList_length : ∀ (xs : List ℤ), (encodeList xs).length = 2 * xs.length
  | [] => by simp [encodeList]
  | x :: rest => by
      have ih := encodeList_length rest
      simp only [encodeList, List.flatMap_cons, List.length_append, List.length_cons,
        encodeSample, List.length_nil] at *
      omega

/-- Errors `processChunk` in `app/index.js` can throw: another call in
flight, a misaligned chunk, or a nonzero status from
`speex_resampler_init` on the lazy first-call engine creation. -/
inductive ResErr
  | concurrency
  | alignment
  | initFail
deriving DecidableEq

/-- The mutable fields of the `SpeexResampler` class in `app/index.js`:
the busy flag `_processing`, whether `_resamplerPtr` has been created, the
tracked sizes of the WASM scratch buffers (`-1` until first allocation),
and the engine state behind `_resamplerPtr`. -/
structure WasmState where
  processing : Bool
  created : Bool
  inBufferSize : ℤ
  outBufferSize : ℤ
  engine : EngineState
deriving DecidableEq

/-- Field values the constructor assigns. -/
def WasmState.fresh : WasmState := ⟨false, false, -1, -1, EngineState.fresh⟩

/-- `SpeexResampler.processChunk` from `app/index.js`, translated statement
by statement: reject when `_processing` is set; reject byte lengths not a
multiple of `channels * 2`; set `_processing`; lazily create the resampler,
throwing if `speex_resampler_init` reports an error (and — as in the code —
without clearing `_processing` on that path); grow the input scratch buffer
to the chunk size and the output scratch buffer to
`ceil(chunk.length * outRate / inRate)` when too small; run the resampler
on the decoded samples; clear `_processing` and return the bytes of the
written output samples. -/
def processChunk (cfg : SpeexConfig) (st : WasmState) (chunk : List ℕ) :
    Except ResErr (List ℕ) × WasmState :=
  if st.processing then (.error .concurrency, st)
  else if chunk.length % (cfg.channels * 2) ≠ 0 then (.error .alignment, st)
  else
    let st1 : WasmState := { st with processing := true }
    if !st1.created && !speexInitOk cfg then (.error .initFail, st1)
    else
      let st2 : WasmState := { st1 with created := true }
      let st3 : WasmState :=
        { st2 with
          inBufferSize := max st2.inBufferSize (chunk.length : ℤ),
          outBufferSize := max st2.outBufferSize
            ((ceilDiv (chunk.length * cfg.outRate) cfg.inRate : ℕ) : ℤ) }
      let step := engineProcess cfg st3.engine (decodeBytes chunk)
      (.ok (encodeList step.1.flatten),
       { st3 with engine := step.2, processing := false })

theorem decodeBytes_flatten :
    ∀ (chunks : List (List ℕ)), (∀ c ∈ chunks, c.length % 2 = 0) →
      decodeBytes chunks.flatten = (chunks.map decodeBytes).flatten
  | [], _ => by simp [decodeBytes]
  | c :: cs, h => by
      rw [List.flatten_cons, List.map_cons, List.flatten_cons,
        decodeBytes_append c cs.flatten (h c (List.mem_cons_self c cs)),
        decodeBytes_flatten cs (fun d hd => h d (List.mem_cons_of_mem c hd))]

theorem encodeList_flatten :
    ∀ (xss : List (List ℤ)), (xss.map encodeList).flatten = encodeList xss.flatten
  | [] => by simp [encodeList]
  | xs :: xss => by
      rw [List.map_cons, List.flatten_cons, List.flatten_cons, encodeList_append,
        encodeList_flatten xss]

/-- On an idle instance with a valid configuration and a frame-aligned
chunk, `processChunk` reaches the success path: it hands the decoded
samples to the engine, grows the scratch-buffer sizes, clears the busy
flag, and returns the encoded output frames. -/
theorem processChunk_ok (cfg : SpeexConfig) (hv : cfg.Valid) (st : WasmState)
    (hp : st.processing = false) {chunk : List ℕ}
    (hal : chunk.length % (cfg.channels * 2) = 0) :
    processChunk cfg st chunk =
      (.ok (encodeList (engineProcess cfg st.engine (decodeBytes chunk)).1.flatten),
       { processing := false, created := true,
         inBufferSize := max st.inBufferSize (chunk.length : ℤ),
         outBufferSize := max st.outBufferSize
           ((ceilDiv (chunk.length * cfg.outRate) cfg.inRate : ℕ) : ℤ),
         engine := (engineProcess cfg st.engine (decodeBytes chunk)).2 }) := by
  have hso : speexInitOk cfg = true := hv
  simp [processChunk, hp, hal, hso]

/-- Successive `processChunk` calls on one instance, threading the state
and collecting each call's output bytes; `none` when some call throws. -/
def feedMany (cfg : SpeexConfig) (st : WasmState) :
    List (List ℕ) → Option (List (List ℕ) × WasmState)
  | [] => some ([], st)
  | c :: cs =>
      match processChunk cfg st c with
      | (.ok out, st') => (feedMany cfg st' cs).map (fun r => (out :: r.1, r.2))
      | (.error _, _) => none

theorem feedMany_ok (cfg : SpeexConfig) (hv : cfg.Valid) :
    ∀ (chunks : List (List ℕ)) (st : WasmState), st.processing = false →
      (∀ c ∈ chunks, c.length % (cfg.channels * 2) = 0) →
      ∃ pieces stEnd, feedMany cfg st chunks = some (pieces, stEnd) ∧
        pieces.flatten =
          encodeList (engineFeed cfg st.engine (chunks.map decodeBytes)).1.flatten ∧
        stEnd.engine = (engineFeed cfg st.engine (chunks.map decodeBytes)).2 ∧
        stEnd.processing = false
  | [], st, hp, _ => by
      refine ⟨[], st, rfl, ?_, ?_, hp⟩
      · simp [engineFeed_nil, encodeList]
      · simp [engineFeed_nil]
  | c :: cs, st, hp, hal => by
      have hstep := processChunk_ok cfg hv st hp (hal c (List.mem_cons_self c cs))
      obtain ⟨pieces, stEnd, hfeed, hflat, hend, hpe⟩ :=
        feedMany_ok cfg hv cs
          { processing := false, created := true,
            inBufferSize := max st.inBufferSize (c.length : ℤ),
            outBufferSize := max st.outBufferSize
              ((ceilDiv (c.length * cfg.outRate) cfg.inRate : ℕ) : ℤ),
            engine := (engineProcess cfg st.engine (decodeBytes c)).2 }
          rfl (fun d hd => hal d (List.mem_cons_of_mem c hd))
      refine ⟨encodeList (engineProcess cfg st.engine (decodeBytes c)).1.flatten ::
        pieces, stEnd, ?_, ?_, ?_, hpe⟩
      · rw [feedMany, hstep]
        simp [hfeed]
      · rw [List.flatten_cons, hflat, List.map_cons, engineFeed_cons]
        show _ = encodeList
          ((engineProcess cfg st.engine (decodeBytes c)).1.flatten ++
            (engineFeed cfg (engineProcess cfg st.engine (decodeBytes c)).2
              (cs.map decodeBytes)).1.flatten)
        rw [encodeList_append]
      · rw [hend, List.map_cons, engineFeed_cons]

theorem outCount_zero (cfg : SpeexConfig) : outCount cfg 0 = 0 := by
  unfold outCount
  rw [if_pos (Nat.zero_le _)]

theorem aligned_even {C L : ℕ} (h : L % (C * 2) = 0) : L % 2 = 0 := by
  obtain ⟨t, ht⟩ := Nat.dvd_of_mod_eq_zero h
  have hL : L = 2 * (C * t) := by rw [ht]; ring
  rw [hL, Nat.mul_mod_right]

theorem decodeBytes_aligned_dvd {C : ℕ} {c : List ℕ}
    (h : c.length % (C * 2) = 0) : C ∣ (decodeBytes c).length := by
  rw [decodeBytes_length]
  obtain ⟨t, ht⟩ := Nat.dvd_of_mod_eq_zero h
  refine ⟨t, ?_⟩
  rw [ht, show C * 2 * t = C * t * 2 by ring]
  exact Nat.mul_div_cancel _ (by omega)

/-- C1.  Chunking invariance: with a valid configuration, feeding any
frame-aligned chunks one by one through a fresh instance succeeds on every
call, and a single `processChunk` of the whole concatenated buffer on a
fresh instance returns exactly the concatenation of the per-chunk
outputs. -/
theorem chunking_invariance (cfg : SpeexConfig) (hv : cfg.Valid)
    (chunks : List (List ℕ))
    (hal : ∀ c ∈ chunks, c.length % (cfg.channels * 2) = 0) :
    ∃ pieces stEnd, feedMany cfg WasmState.fresh chunks = some (pieces, stEnd) ∧
      (processChunk cfg WasmState.fresh chunks.flatten).1 = .ok pieces.flatten := by
  have hC := hv.channels_pos
  have hin := hv.inRate_pos
  have hout := hv.outRate_pos
  obtain ⟨pieces, stEnd, hfeed, hflat, _, _⟩ :=
    feedMany_ok cfg hv chunks WasmState.fresh rfl hal
  refine ⟨pieces, stEnd, hfeed, ?_⟩
  have halflat : chunks.flatten.length % (cfg.channels * 2) = 0 := by
    have : (cfg.channels * 2) ∣ chunks.flatten.length :=
      dvd_flatten_length chunks (fun c hc => Nat.dvd_of_mod_eq_zero (hal c hc))
    obtain ⟨t, ht⟩ := this
    rw [ht, Nat.mul_mod_right]
  rw [processChunk_ok cfg hv _ rfl halflat]
  show Except.ok
      (encodeList (engineProcess cfg WasmState.fresh.engine
        (decodeBytes chunks.flatten)).1.flatten) = Except.ok pieces.flatten
  rw [hflat]
  have hinputs_dvd : ∀ d ∈ chunks.map decodeBytes, cfg.channels ∣ d.length := by
    intro d hd
    obtain ⟨c, hc, rfl⟩ := List.mem_map.mp hd
    exact decodeBytes_aligned_dvd (hal c hc)
  have heven : ∀ c ∈ chunks, c.length % 2 = 0 :=
    fun c hc => aligned_even (hal c hc)
  have hdecode : decodeBytes chunks.flatten = (chunks.map decodeBytes).flatten :=
    decodeBytes_flatten chunks heven
  obtain ⟨T, hT⟩ : cfg.channels ∣ (chunks.map decodeBytes).flatten.length :=
    dvd_flatten_length _ hinputs_dvd
  have hm : (chunks.map decodeBytes).flatten.length = T * cfg.channels := by
    rw [hT, Nat.mul_comm]
  have hdivT : (chunks.map decodeBytes).flatten.length / cfg.channels = T := by
    rw [hm]
    exact Nat.mul_div_cancel _ hC
  have hfresh : WasmState.fresh.engine = (⟨[], outCount cfg 0⟩ : EngineState) := by
    rw [outCount_zero]
    rfl
  have hsingle := @engineProcess_inv cfg hC [] ((chunks.map decodeBytes).flatten)
    0 T (by simp) hm
  have hmulti := (engineFeed_explicit cfg hin hout hC (chunks.map decodeBytes)
    [] 0 (by simp) hinputs_dvd).1
  rw [hfresh, hdecode, hsingle, hmulti, hdivT]

/-- Concrete run of C1: mono upsampling 2 Hz → 3 Hz at quality 1, two
2-byte chunks versus their 4-byte concatenation. -/
theorem chunking_invariance_witness :
    (⟨1, 2, 3, 1⟩ : SpeexConfig).Valid ∧
    (∀ c ∈ [[0, 0], [1, 0]], List.length c % (1 * 2) = 0) ∧
    (∃ pieces stEnd,
      feedMany ⟨1, 2, 3, 1⟩ WasmState.fresh [[0, 0], [1, 0]] =
        some (pieces, stEnd) ∧
      (processChunk ⟨1, 2, 3, 1⟩ WasmState.fresh
        ([[0, 0], [1, 0]] : List (List ℕ)).flatten).1 = .ok pieces.flatten) :=
  ⟨by decide, by decide,
    chunking_invariance ⟨1, 2, 3, 1⟩ (by decide) [[0, 0], [1, 0]] (by decide)⟩

theorem flatten_outFrames_length (cfg : SpeexConfig) :
    ∀ (ks : List ℕ) (xs : List ℤ),
      ((ks.map (outFrame cfg xs)).flatten).length = ks.length * cfg.channels
  | [], _ => by simp
  | k :: ks, xs => by
      rw [List.map_cons, List.flatten_cons, List.length_append,
        length_outFrame, flatten_outFrames_length cfg ks xs, List.length_cons]
      ring

/-- Core duration bound: the total number of output samples per channel
after `F` input frames, divided by the output rate, stays within the
filter latency `halfwidth/inRate` (plus one output-sample rounding) of the
input duration `F/inRate`. -/
theorem outCount_duration_bound (cfg : SpeexConfig) (hin : 0 < cfg.inRate)
    (hout : 0 < cfg.outRate) (F : ℕ) :
    |((outCount cfg F : ℚ) / (cfg.outRate : ℚ)) - ((F : ℚ) / (cfg.inRate : ℚ))| ≤
      (filterHalfwidth cfg.quality : ℚ) / (cfg.inRate : ℚ) +
        1 / (cfg.outRate : ℚ) := by
  have hI : (0 : ℚ) < (cfg.inRate : ℚ) := by exact_mod_cast hin
  have hO : (0 : ℚ) < (cfg.outRate : ℚ) := by exact_mod_cast hout
  by_cases hF : F ≤ filterHalfwidth cfg.quality
  · unfold outCount
    rw [if_pos hF]
    push_cast
    rw [zero_div, zero_sub, abs_neg, abs_of_nonneg (by positivity)]
    have h1 : (F : ℚ) / (cfg.inRate : ℚ) ≤
        (filterHalfwidth cfg.quality : ℚ) / (cfg.inRate : ℚ) := by
      gcongr
    have h2 : (0 : ℚ) ≤ 1 / (cfg.outRate : ℚ) := by positivity
    linarith
  · push_neg at hF
    unfold outCount
    rw [if_neg (by omega)]
    have hIne : (cfg.inRate : ℚ) ≠ 0 := ne_of_gt hI
    have hOne : (cfg.outRate : ℚ) ≠ 0 := ne_of_gt hO
    have ha_le : (F - filterHalfwidth cfg.quality) * cfg.outRate ≤
        ceilDiv ((F - filterHalfwidth cfg.quality) * cfg.outRate) cfg.inRate *
          cfg.inRate := le_mul_ceilDiv hin
    have hq_le : ceilDiv ((F - filterHalfwidth cfg.quality) * cfg.outRate)
          cfg.inRate * cfg.inRate ≤
        (F - filterHalfwidth cfg.quality) * cfg.outRate + cfg.inRate := by
      unfold ceilDiv
      calc ((F - filterHalfwidth cfg.quality) * cfg.outRate + cfg.inRate - 1) /
            cfg.inRate * cfg.inRate ≤
          (F - filterHalfwidth cfg.quality) * cfg.outRate + cfg.inRate - 1 :=
            Nat.div_mul_le_self _ _
        _ ≤ (F - filterHalfwidth cfg.quality) * cfg.outRate + cfg.inRate := by
            omega
    have hsub : ((F - filterHalfwidth cfg.quality : ℕ) : ℚ) =
        (F : ℚ) - (filterHalfwidth cfg.quality : ℚ) := by
      rw [Nat.cast_sub (le_of_lt hF)]
    have hq1 : ((F : ℚ) - (filterHalfwidth cfg.quality : ℚ)) * (cfg.outRate : ℚ) ≤
        (ceilDiv ((F - filterHalfwidth cfg.quality) * cfg.outRate) cfg.inRate : ℚ) *
          (cfg.inRate : ℚ) := by
      rw [← hsub]
      exact_mod_cast ha_le
    have hq2 : (ceilDiv ((F - filterHalfwidth cfg.quality) * cfg.outRate)
          cfg.inRate : ℚ) * (cfg.inRate : ℚ) ≤
        ((F : ℚ) - (filterHalfwidth cfg.quality : ℚ)) * (cfg.outRate : ℚ) +
          (cfg.inRate : ℚ) := by
      rw [← hsub]
      exact_mod_cast hq_le
    have hkey : (ceilDiv ((F - filterHalfwidth cfg.quality) * cfg.outRate)
          cfg.inRate : ℚ) / (cfg.outRate : ℚ) - (F : ℚ) / (cfg.inRate : ℚ) =
        ((ceilDiv ((F - filterHalfwidth cfg.quality) * cfg.outRate)
            cfg.inRate : ℚ) * (cfg.inRate : ℚ) -
          (F : ℚ) * (cfg.outRate : ℚ)) /
          ((cfg.outRate : ℚ) * (cfg.inRate : ℚ)) := by
      field_simp
      ring
    rw [hkey, abs_div, abs_of_pos (mul_pos hO hI), div_le_iff₀ (mul_pos hO hI)]
    have hexp : ((filterHalfwidth cfg.quality : ℚ) / (cfg.inRate : ℚ) +
          1 / (cfg.outRate : ℚ)) * ((cfg.outRate : ℚ) * (cfg.inRate : ℚ)) =
        (filterHalfwidth cfg.quality : ℚ) *
            ((cfg.inRate : ℚ)⁻¹ * (cfg.inRate : ℚ)) * (cfg.outRate : ℚ) +
          ((cfg.outRate : ℚ)⁻¹ * (cfg.outRate : ℚ)) * (cfg.inRate : ℚ) := by
      rw [div_eq_mul_inv, div_eq_mul_inv]
      ring
    rw [inv_mul_cancel₀ hIne, inv_mul_cancel₀ hOne, mul_one, one_mul] at hexp
    rw [hexp, abs_le]
    have hHO : (0 : ℚ) ≤ (filterHalfwidth cfg.quality : ℚ) * (cfg.outRate : ℚ) := by
      positivity
    constructor
    · linarith
    · linarith

/-- C2 (amended).  Duration conservation up to filter latency: for any
valid configuration and any frame-aligned chunking of the stream, every
call succeeds and the total output duration differs from the total input
duration (durations in seconds, `bytes / (rate * 2 * channels)`) by at
most `filterHalfwidth/inRate + 1/outRate` — the engine's latency plus one
output sample of rounding — regardless of chunk boundaries. -/
theorem duration_conservation_amended (cfg : SpeexConfig) (hv : cfg.Valid)
    (chunks : List (List ℕ))
    (hal : ∀ c ∈ chunks, c.length % (cfg.channels * 2) = 0) :
    ∃ pieces stEnd, feedMany cfg WasmState.fresh chunks = some (pieces, stEnd) ∧
      |((pieces.flatten.length : ℚ) /
          ((cfg.outRate : ℚ) * 2 * (cfg.channels : ℚ))) -
        ((chunks.flatten.length : ℚ) /
          ((cfg.inRate : ℚ) * 2 * (cfg.channels : ℚ)))| ≤
        (filterHalfwidth cfg.quality : ℚ) / (cfg.inRate : ℚ) +
          1 / (cfg.outRate : ℚ) := by
  have hC := hv.channels_pos
  have hin := hv.inRate_pos
  have hout := hv.outRate_pos
  obtain ⟨pieces, stEnd, hfeed, hflat, _, _⟩ :=
    feedMany_ok cfg hv chunks WasmState.fresh rfl hal
  refine ⟨pieces, stEnd, hfeed, ?_⟩
  have hinputs_dvd : ∀ d ∈ chunks.map decodeBytes, cfg.channels ∣ d.length := by
    intro d hd
    obtain ⟨c, hc, rfl⟩ := List.mem_map.mp hd
    exact decodeBytes_aligned_dvd (hal c hc)
  obtain ⟨T, hT⟩ : cfg.channels ∣ (chunks.map decodeBytes).flatten.length :=
    dvd_flatten_length _ hinputs_dvd
  have hdivT : (chunks.map decodeBytes).flatten.length / cfg.channels = T := by
    rw [hT, Nat.mul_comm]
    exact Nat.mul_div_cancel _ hC
  have hfresh : WasmState.fresh.engine = (⟨[], outCount cfg 0⟩ : EngineState) := by
    rw [outCount_zero]
    rfl
  have hmulti := (engineFeed_explicit cfg hin hout hC (chunks.map decodeBytes)
    [] 0 (by simp) hinputs_dvd).1
  rw [hfresh] at hflat
  rw [hmulti, hdivT] at hflat
  -- total output bytes
  have houtlen : pieces.flatten.length = 2 * (outCount cfg (0 + T) * cfg.channels) := by
    rw [hflat, encodeList_length, List.nil_append, flatten_outFrames_length,
      List.length_range']
    rw [outCount_zero, Nat.sub_zero]
  -- total input bytes: the flat byte stream has T frames of channels*2 bytes
  have hbytes : chunks.flatten.length = T * (cfg.channels * 2) := by
    obtain ⟨s, hs⟩ : (cfg.channels * 2) ∣ chunks.flatten.length :=
      dvd_flatten_length chunks (fun c hc => Nat.dvd_of_mod_eq_zero (hal c hc))
    have hdec : (decodeBytes chunks.flatten).length = chunks.flatten.length / 2 :=
      decodeBytes_length chunks.flatten
    have heven : ∀ c ∈ chunks, c.length % 2 = 0 :=
      fun c hc => aligned_even (hal c hc)
    have hdecfl : decodeBytes chunks.flatten = (chunks.map decodeBytes).flatten :=
      decodeBytes_flatten chunks heven
    rw [hdecfl, hT] at hdec
    have : chunks.flatten.length = 2 * (cfg.channels * T) := by
      rw [hs] at hdec ⊢
      have h2 : cfg.channels * 2 * s / 2 = cfg.channels * s := by
        rw [show cfg.channels * 2 * s = cfg.channels * s * 2 by ring]
        exact Nat.mul_div_cancel _ (by omega)
      rw [h2] at hdec
      have hThs : cfg.channels * T = cfg.channels * s := hdec
      calc cfg.channels * 2 * s = 2 * (cfg.channels * s) := by ring
        _ = 2 * (cfg.channels * T) := by rw [← hThs]
    rw [this]
    ring
  rw [houtlen, hbytes, Nat.zero_add]
  have hIq : (0 : ℚ) < (cfg.inRate : ℚ) := by exact_mod_cast hin
  have hOq : (0 : ℚ) < (cfg.outRate : ℚ) := by exact_mod_cast hout
  have hCq : (0 : ℚ) < (cfg.channels : ℚ) := by exact_mod_cast hC
  have hod : ((2 * (outCount cfg T * cfg.channels) : ℕ) : ℚ) /
      ((cfg.outRate : ℚ) * 2 * (cfg.channels : ℚ)) =
      (outCount cfg T : ℚ) / (cfg.outRate : ℚ) := by
    push_cast
    field_simp
    ring
  have hid : ((T * (cfg.channels * 2) : ℕ) : ℚ) /
      ((cfg.inRate : ℚ) * 2 * (cfg.channels : ℚ)) =
      (T : ℚ) / (cfg.inRate : ℚ) := by
    push_cast
    field_simp
    ring
  rw [hod, hid]
  exact outCount_duration_bound cfg hin hout T

/-- Concrete instantiation of the amended duration bound: mono
24000 Hz → 48000 Hz, quality 7, one 2-byte chunk. -/
theorem duration_conservation_witness :
    (⟨1, 24000, 48000, 7⟩ : SpeexConfig).Valid ∧
    (∀ c ∈ [[0, 0]], List.length c % (1 * 2) = 0) ∧
    (∃ pieces stEnd,
      feedMany ⟨1, 24000, 48000, 7⟩ WasmState.fresh [[0, 0]] =
        some (pieces, stEnd) ∧
      |((pieces.flatten.length : ℚ) / ((48000 : ℚ) * 2 * (1 : ℚ))) -
        ((([[0, 0]] : List (List ℕ)).flatten.length : ℚ) /
          ((24000 : ℚ) * 2 * (1 : ℚ)))| ≤
        (filterHalfwidth 7 : ℚ) / (24000 : ℚ) + 1 / (48000 : ℚ)) :=
  ⟨by decide, by decide,
    duration_conservation_amended ⟨1, 24000, 48000, 7⟩ (by decide) [[0, 0]]
      (by decide)⟩

/-- Counterexample to C2 as stated: at the valid configuration
`channels = 1, inRate = 1 Hz, outRate = 1 Hz, quality 7`, a single aligned
2-byte chunk (1 second of input) produces no output at all — the engine's
filter latency exceeds the whole stream — so the duration gap is a full
second, not below 10 ms. -/
theorem duration_conservation_cex :
    (⟨1, 1, 1, 7⟩ : SpeexConfig).Valid ∧
    (processChunk ⟨1, 1, 1, 7⟩ WasmState.fresh [0, 0]).1 = .ok [] ∧
    ¬ (|((([] : List ℕ).length : ℚ) / ((1 : ℚ) * 2 * 1)) -
        ((([0, 0] : List ℕ).length : ℚ) / ((1 : ℚ) * 2 * 1))| <
        10 / 1000) := by
  refine ⟨by decide, by rfl, ?_⟩
  norm_num

/-- C3.  Alignment rejection: on an idle instance, a chunk whose byte
length is not a multiple of `channels * 2` makes `processChunk` throw the
alignment error before anything is mutated — the returned state is exactly
the state before the call. -/
theorem alignment_rejection (cfg : SpeexConfig) (st : WasmState)
    (hp : st.processing = false) (chunk : List ℕ)
    (hmis : chunk.length % (cfg.channels * 2) ≠ 0) :
    processChunk cfg st chunk = (.error .alignment, st) := by
  simp [processChunk, hp, hmis]

/-- Concrete instantiation of alignment rejection: stereo instance, 1-byte
chunk. -/
theorem alignment_rejection_witness :
    (WasmState.fresh.processing = false) ∧
    (([0] : List ℕ).length % (2 * 2) ≠ 0) ∧
    processChunk ⟨2, 44100, 48000, 7⟩ WasmState.fresh [0] =
      (.error .alignment, WasmState.fresh) :=
  ⟨rfl, by decide,
    alignment_rejection ⟨2, 44100, 48000, 7⟩ WasmState.fresh rfl [0] (by decide)⟩

/-- C4.  Concurrency rejection: while the busy flag of a previous
`processChunk` call is still set, a second call throws the concurrency
error at entry and returns the state untouched. -/
theorem concurrency_rejection (cfg : SpeexConfig) (st : WasmState)
    (hp : st.processing = true) (chunk : List ℕ) :
    processChunk cfg st chunk = (.error .concurrency, st) := by
  simp [processChunk, hp]

/-- Concrete instantiation of concurrency rejection. -/
theorem concurrency_rejection_witness :
    ({ WasmState.fresh with processing := true }.processing = true) ∧
    processChunk ⟨2, 44100, 48000, 7⟩ { WasmState.fresh with processing := true }
        [0, 0, 0, 0] =
      (.error .concurrency, { WasmState.fresh with processing := true }) :=
  ⟨rfl, concurrency_rejection ⟨2, 44100, 48000, 7⟩
    { WasmState.fresh with processing := true } rfl [0, 0, 0, 0]⟩

/-- C5 evaluated at its failing input: `app/index.js` sets `_processing`
before the lazy `speex_resampler_init` call and clears it only on the
success path, so when the init reports an error (as for the unvalidated
quality 11, which the constructor accepted) the busy flag stays set and
every later well-formed call is rejected as overlapping. -/
theorem busy_flag_wedged :
    (processChunk ⟨1, 48000, 44100, 11⟩ WasmState.fresh [0, 0]).1 =
      .error .initFail ∧
    (processChunk ⟨1, 48000, 44100, 11⟩ WasmState.fresh [0, 0]).2.processing =
      true ∧
    (processChunk ⟨1, 48000, 44100, 11⟩
        (processChunk ⟨1, 48000, 44100, 11⟩ WasmState.fresh [0, 0]).2
        [0, 0]).1 = .error .concurrency :=
  ⟨rfl, rfl, rfl⟩

/-- The result of a successful native `createResampler` call: the values
`speex_resampler_init` was invoked with. -/
structure NativeResampler where
  channels : ℤ
  inRate : ℤ
  outRate : ℤ
  quality : ℤ
deriving DecidableEq

/-- `info[i]` of the N-API callback: `some v` is a number argument with
value `v`, `none` any non-number; reading past the end of the argument
list yields JavaScript `undefined`, also `none`. -/
def argAt (args : List (Option ℤ)) (i : ℕ) : Option ℤ := args.getD i none

/-- `!info[i].IsNumber() || info[i].Int32Value() < 1`, negated. -/
def numGe1 : Option ℤ → Bool
  | some v => 1 ≤ v
  | none => false

/-- `info[3]` is a number in `[1, 10]`. -/
def qualInRange : Option ℤ → Bool
  | some v => 1 ≤ v && v ≤ 10
  | none => false

/-- `createResampler` from `src/resampler.cc`, translated check by check:
arity 3 or 4; `channels`, `inRate`, `outRate` must be numbers ≥ 1;
`quality` starts at 7 and is validated and overwritten only when
`info.Length() == 4 && !info[4].IsUndefined()` — the guard as written in
the source tests the fifth argument `info[4]`, not the quality argument
`info[3]`; finally `speex_resampler_init` runs (modelled from the spec:
it fails exactly on configurations outside the spec's valid range). -/
def createResampler (args : List (Option ℤ)) : Except String NativeResampler :=
  if args.length ≠ 3 ∧ args.length ≠ 4 then
    .error "Should get 3 or 4 arguments: channels, inRate, outRate, [quality]"
  else if ¬ numGe1 (argAt args 0) then
    .error "First argument channels should be a number greater or equal to 1"
  else if ¬ numGe1 (argAt args 1) then
    .error "Second argument inRate should be a number greater or equal to 1"
  else if ¬ numGe1 (argAt args 2) then
    .error "Third argument outRate should be a number greater or equal to 1"
  else if args.length = 4 ∧ argAt args 4 ≠ none ∧ ¬ qualInRange (argAt args 3) then
    .error "Fourth argument quality should be a number between 1 and 10"
  else
    let channels := (argAt args 0).getD 0
    let inRate := (argAt args 1).getD 0
    let outRate := (argAt args 2).getD 0
    let quality : ℤ :=
      if args.length = 4 ∧ argAt args 4 ≠ none then (argAt args 3).getD 0 else 7
    if speexInitOk ⟨channels.toNat, inRate.toNat, outRate.toNat, quality.toNat⟩ then
      .ok ⟨channels, inRate, outRate, quality⟩
    else
      .error "Error while initializing speex"

/-- C10.  The caller-supplied quality argument is inert: a 4-argument
`createResampler` call is entirely independent of its fourth argument
(the ``info[4]`` guard can never hold when only four arguments exist), and
every instance it creates carries quality 7. -/
theorem quality_argument_inert :
    (∀ a b c q q' : Option ℤ,
      createResampler [a, b, c, q] = createResampler [a, b, c, q']) ∧
    (∀ (args : List (Option ℤ)) (r : NativeResampler), args.length = 4 →
      createResampler args = .ok r → r.quality = 7) := by
  constructor
  · intro a b c q q'
    simp [createResampler, argAt]
  · intro args r hlen hok
    match args, hlen with
    | [a, b, c, d], _ =>
      simp only [createResampler, argAt, List.getD, List.get?] at hok
      split at hok
      · exact absurd hok (by simp)
      · split at hok
        · exact absurd hok (by simp)
        · split at hok
          · exact absurd hok (by simp)
          · split at hok
            · exact absurd hok (by simp)
            · split at hok
              · exact absurd hok (by simp)
              · split at hok
                · simp_all
                · split at hok
                  · rw [Except.ok.injEq] at hok
                    rw [← hok]
                  · exact absurd hok (by simp)

/-- Concrete instantiation: a 4-argument call with quality 3 succeeds and
the created instance carries quality 7, not 3. -/
theorem quality_argument_inert_witness :
    (([some 2, some 44100, some 48000, some 3] : List (Option ℤ)).length = 4) ∧
    createResampler [some 2, some 44100, some 48000, some 3] =
      .ok ⟨2, 44100, 48000, 7⟩ ∧
    (⟨2, 44100, 48000, 7⟩ : NativeResampler).quality = 7 :=
  ⟨rfl, rfl,
    quality_argument_inert.2 [some 2, some 44100, some 48000, some 3]
      ⟨2, 44100, 48000, 7⟩ rfl rfl⟩

/-- C6 evaluated at its failing input: a 4-argument call with the
out-of-range quality 11 is not rejected — the `info[4]` guard prevents the
quality validation from running, and the instance is created with quality
7 instead of failing with a `ConfigurationError`. -/
theorem construction_validation_bug :
    createResampler [some 1, some 44100, some 48000, some 11] =
      .ok ⟨1, 44100, 48000, 7⟩ := rfl

/-- The mutable fields of `SpeexResamplerTransform` in `src/index.js`
(native binding): the fixed `channels * 2`-byte remainder buffer
(`Buffer.alloc` zero-fills it) and the count of remainder bytes held. -/
structure AdapterState where
  alb : List ℕ
  albLen : ℕ
deriving DecidableEq

def adapterFresh (channels : ℕ) : AdapterState := ⟨List.replicate (channels * 2) 0, 0⟩

/-- `source.copy(target, 0, sourceStart)` on Node buffers: copy bytes of
`source` from `sourceStart` on into the front of `target`, truncated to
whatever fits. -/
def bufCopy (target source : List ℕ) (sourceStart : ℕ) : List ℕ :=
  (source.drop sourceStart).take target.length ++
    target.drop (((source.drop sourceStart).take target.length).length)

/-- `SpeexResamplerTransform._transform` from `src/index.js` (the variant
with the remainder buffer feeding `chunkToProcess` to the resampler),
translated statement by statement: prepend the held remainder bytes, then
when the result is unaligned store bytes starting at offset
`extraneousBytesCount` — as the source does — into the remainder buffer
and cut the tail off the processed part.  Returns the bytes handed to the
inner `processChunk` together with the new adapter state. -/
def transformStep (channels : ℕ) (st : AdapterState) (chunk : List ℕ) :
    List ℕ × AdapterState :=
  let ctp := if st.albLen > 0 then st.alb.take st.albLen ++ chunk else chunk
  let ex := ctp.length % (channels * 2)
  if ex ≠ 0 then
    (ctp.take (ctp.length - ex), ⟨bufCopy st.alb ctp ex, ex⟩)
  else
    (ctp, ⟨st.alb, 0⟩)

/-- C9 evaluated at its failing input: streaming the bytes `7` then `8`
into a mono native Transform.  After the first call the adapter retains
the zero byte it copied from offset `extraneousBytesCount` (not the
stream's trailing byte `7`), and the second call therefore hands `[0, 8]`
to the inner `processChunk` instead of the stream prefix `[7, 8]` — byte
`7` is dropped and a zero is injected. -/
theorem alignment_adapter_bug :
    ((transformStep 1 (adapterFresh 1) [7]).1 = [] ∧
      (transformStep 1 (adapterFresh 1) [7]).2.alb.take
        (transformStep 1 (adapterFresh 1) [7]).2.albLen = [0] ∧
      (transformStep 1 (transformStep 1 (adapterFresh 1) [7]).2 [8]).1 =
        [0, 8]) ∧
    ([0] : List ℕ) ≠ [7] ∧
    ([] : List ℕ) ++ [0, 8] ≠ [7, 8] :=
  ⟨⟨rfl, rfl, rfl⟩, by decide, by decide⟩

/-- C7 (amended).  Output sizing: a successful `processChunk` on an idle
instance (engine holding `n` whole frames, all producible output already
emitted) returns exactly `outSamplesPerChannelWritten * channels * 2`
bytes, a multiple of `channels * 2`, and at most
`ceil(inputFrames * outRate / inRate)` frames — the frame-granular
ceiling; the byte-granular `ceil(inputBytes * outRate / inRate)` of the
original claim can be exceeded (see the counterexample). -/
theorem output_sizing (cfg : SpeexConfig) (hv : cfg.Valid)
    (st : WasmState) (hp : st.processing = false) {n : ℕ}
    (hn : st.engine.received.length = n * cfg.channels)
    (he : st.engine.emitted = outCount cfg n)
    (chunk : List ℕ) (hal : chunk.length % (cfg.channels * 2) = 0) :
    ∃ out stEnd, processChunk cfg st chunk = (.ok out, stEnd) ∧
      out.length = (stEnd.engine.emitted - st.engine.emitted) * cfg.channels * 2 ∧
      (cfg.channels * 2) ∣ out.length ∧
      out.length ≤
        ceilDiv ((chunk.length / (cfg.channels * 2)) * cfg.outRate) cfg.inRate *
          (cfg.channels * 2) := by
  have hC := hv.channels_pos
  have hin := hv.inRate_pos
  obtain ⟨m, hm⟩ := Nat.dvd_of_mod_eq_zero hal
  have hmframes : chunk.length / (cfg.channels * 2) = m := by
    rw [hm]
    exact Nat.mul_div_cancel_left _ (by omega)
  have hdec : (decodeBytes chunk).length = m * cfg.channels := by
    rw [decodeBytes_length, hm,
      show cfg.channels * 2 * m = m * cfg.channels * 2 by ring]
    exact Nat.mul_div_cancel _ (by omega)
  have hengine : st.engine = (⟨st.engine.received, outCount cfg n⟩ : EngineState) := by
    rw [← he]
  have hinv := @engineProcess_inv cfg hC st.engine.received (decodeBytes chunk)
    n m hn hdec
  have hstep := processChunk_ok cfg hv st hp hal
  rw [hengine, hinv] at hstep
  refine ⟨_, _, hstep, ?_, ?_, ?_⟩
  · show (encodeList ((List.range' (outCount cfg n)
        (outCount cfg (n + m) - outCount cfg n)).map
          (outFrame cfg (st.engine.received ++ decodeBytes chunk))).flatten).length =
      (outCount cfg (n + m) - st.engine.emitted) * cfg.channels * 2
    rw [encodeList_length, flatten_outFrames_length, List.length_range', he]
    ring
  · show (cfg.channels * 2) ∣ (encodeList ((List.range' (outCount cfg n)
        (outCount cfg (n + m) - outCount cfg n)).map
          (outFrame cfg (st.engine.received ++ decodeBytes chunk))).flatten).length
    rw [encodeList_length, flatten_outFrames_length, List.length_range']
    exact ⟨outCount cfg (n + m) - outCount cfg n, by ring⟩
  · show (encodeList ((List.range' (outCount cfg n)
        (outCount cfg (n + m) - outCount cfg n)).map
          (outFrame cfg (st.engine.received ++ decodeBytes chunk))).flatten).length ≤
      ceilDiv ((chunk.length / (cfg.channels * 2)) * cfg.outRate) cfg.inRate *
        (cfg.channels * 2)
    rw [encodeList_length, flatten_outFrames_length, List.length_range', hmframes]
    have hbound : outCount cfg (n + m) - outCount cfg n ≤
        ceilDiv (m * cfg.outRate) cfg.inRate := by
      have := @outCount_add_le cfg hin n m
      omega
    calc 2 * ((outCount cfg (n + m) - outCount cfg n) * cfg.channels) =
        (outCount cfg (n + m) - outCount cfg n) * (cfg.channels * 2) := by ring
      _ ≤ ceilDiv (m * cfg.outRate) cfg.inRate * (cfg.channels * 2) :=
          Nat.mul_le_mul_right _ hbound

/-- Concrete instantiation of the amended output-sizing bound on a fresh
mono 2 Hz → 3 Hz instance. -/
theorem output_sizing_witness :
    (⟨1, 2, 3, 1⟩ : SpeexConfig).Valid ∧
    WasmState.fresh.processing = false ∧
    WasmState.fresh.engine.received.length = 0 * 1 ∧
    WasmState.fresh.engine.emitted = outCount ⟨1, 2, 3, 1⟩ 0 ∧
    (([0, 0] : List ℕ).length % (1 * 2) = 0) ∧
    (∃ out stEnd,
      processChunk ⟨1, 2, 3, 1⟩ WasmState.fresh [0, 0] = (.ok out, stEnd) ∧
      out.length =
        (stEnd.engine.emitted - WasmState.fresh.engine.emitted) * 1 * 2 ∧
      (1 * 2) ∣ out.length ∧
      out.length ≤ ceilDiv ((([0, 0] : List ℕ).length / (1 * 2)) * 3) 2 * (1 * 2)) :=
  ⟨by decide, rfl, rfl, by decide, by decide,
    output_sizing ⟨1, 2, 3, 1⟩ (by decide) WasmState.fresh rfl (n := 0) rfl
      (by decide) [0, 0] (by decide)⟩

/-- Counterexample to C7's byte-granular bound: mono 2 Hz → 3 Hz at
quality 1.  After a 16-byte priming chunk, a 2-byte chunk yields 4 output
bytes, exceeding `ceil(2 · 3 / 2) = 3` bytes; the bound holds only at
frame granularity. -/
theorem output_sizing_cex :
    (processChunk ⟨1, 2, 3, 1⟩ WasmState.fresh
        (List.replicate 16 0)).1.isOk = true ∧
    (processChunk ⟨1, 2, 3, 1⟩
        (processChunk ⟨1, 2, 3, 1⟩ WasmState.fresh (List.replicate 16 0)).2
        [0, 0]).1 = .ok (List.replicate 4 0) ∧
    ¬ ((List.replicate 4 0 : List ℕ).length ≤
        ceilDiv (([0, 0] : List ℕ).length * 3) 2) := by
  refine ⟨rfl, rfl, by decide⟩

end SpeexVerify
